import Mathlib

/-!
Verification development for the voice-sync repository: a shallow embedding of
the two inference-serving scripts
(`src/python-services/sound-detection/app.py` and `src/server/vad-service.py`)
together with proofs about their post-processing logic (threshold masking,
run-length segment extraction, minimum-duration filtering, pacing
classification, resampling, lazy model initialization and top-level error
handling).  Probabilities, durations and thresholds are modelled as rationals;
frame indices and sample counts as naturals.
-/

namespace VoiceSync

/-! ## Segment extraction in `detect_sounds` (app.py, lines 189-192)

Python:
```
diff = np.diff(np.concatenate(([0], above_threshold.astype(int), [0])))
starts = np.where(diff == 1)[0]
ends = np.where(diff == -1)[0]
```
-/

/-- `astype(int)` on one boolean: `True ↦ 1`, `False ↦ 0`. -/
def maskInt (b : Bool) : Int := if b then 1 else 0

/-- `np.concatenate(([0], mask.astype(int), [0]))`. -/
def paddedMask (mask : List Bool) : List Int := 0 :: (mask.map maskInt ++ [0])

/-- `np.diff`: successive differences `l[i+1] - l[i]`. -/
def npDiff : List Int → List Int
  | [] => []
  | [_] => []
  | a :: b :: rest => (b - a) :: npDiff (b :: rest)

/-- `np.where(l == v)[0]` with indices counted from `i`: the ascending list of
positions at which `l` holds the value `v`. -/
def whereEqFrom (v : Int) : Nat → List Int → List Nat
  | _, [] => []
  | i, x :: rest => (if x = v then [i] else []) ++ whereEqFrom v (i + 1) rest

/-- `starts = np.where(diff == 1)[0]` of `detect_sounds`. -/
def segStarts (mask : List Bool) : List Nat :=
  whereEqFrom 1 0 (npDiff (paddedMask mask))

/-- `ends = np.where(diff == -1)[0]` of `detect_sounds`. -/
def segEnds (mask : List Bool) : List Nat :=
  whereEqFrom (-1) 0 (npDiff (paddedMask mask))

/-- The pairing `zip(starts, ends)` iterated by the `for start, end` loop. -/
def segPairs (mask : List Bool) : List (Nat × Nat) :=
  List.zip (segStarts mask) (segEnds mask)

/-! ### The specification side: a naive single-pass run-length encoding -/

/-- One pass over the mask at position `i`; `o` carries the start index of the
currently open run of `true` (if any).  Emits the maximal `true` runs as
half-open intervals. -/
def rleGo : Nat → Option Nat → List Bool → List (Nat × Nat)
  | _, none, [] => []
  | i, some s, [] => [(s, i)]
  | i, none, b :: rest => if b then rleGo (i + 1) (some i) rest else rleGo (i + 1) none rest
  | i, some s, b :: rest =>
      if b then rleGo (i + 1) (some s) rest else (s, i) :: rleGo (i + 1) none rest

/-- Naive single-pass run-length encoding of a boolean mask. -/
def rleRuns (mask : List Bool) : List (Nat × Nat) := rleGo 0 none mask

/-! ### The first-difference sequence, computed incrementally -/

/-- Differences of the padded 0/1 mask, carrying the previous bit. -/
def dseq (prev : Bool) : List Bool → List Int
  | [] => [0 - maskInt prev]
  | b :: rest => (maskInt b - maskInt prev) :: dseq b rest

/-- The zipped starts/ends lists, generalized over the scan state: when a run
is open since `s`, that pending start is consed onto the future starts. -/
def zipState (i : Nat) (o : Option Nat) (mask : List Bool) : List (Nat × Nat) :=
  match o with
  | none =>
      List.zip (whereEqFrom 1 i (dseq false mask)) (whereEqFrom (-1) i (dseq false mask))
  | some s =>
      List.zip (s :: whereEqFrom 1 i (dseq true mask)) (whereEqFrom (-1) i (dseq true mask))

/-- Mask lookup with default `false` (out-of-range frames are not detected). -/
def mget (mask : List Bool) (j : Nat) : Bool := mask.getD j false

/-- `[s, e)` is a maximal contiguous run of `true` frames in `mask`. -/
def IsMaxRun (mask : List Bool) (s e : Nat) : Prop :=
  s < e ∧ e ≤ mask.length ∧ (∀ j, s ≤ j → j < e → mget mask j = true) ∧
    (s = 0 ∨ mget mask (s - 1) = false) ∧ (e = mask.length ∨ mget mask e = false)

/-! ## `categorize_sound` (app.py, lines 74-106) -/

/-- One character of Python `str.lower()` (ASCII model: the AudioSet labels and
keyword lists are ASCII). -/
def charLower (c : Char) : Char :=
  if 'A' ≤ c ∧ c ≤ 'Z' then Char.ofNat (c.toNat + 32) else c

/-- Python `s.lower()` (ASCII model). -/
def pyLower (s : String) : String := ⟨s.data.map charLower⟩

/-- Python's substring test on character lists (`needle in hay`). -/
def charsIn (needle : List Char) : List Char → Bool
  | [] => needle.isEmpty
  | c :: rest => needle.isPrefixOf (c :: rest) || charsIn needle rest

/-- Python `needle in hay` for strings. -/
def strIn (needle hay : String) : Bool := charsIn needle.data hay.data

def ambient_keywords : List String :=
  ["rain", "wind", "thunder", "ocean", "water", "stream", "river",
   "bird", "cricket", "frog", "insect", "nature",
   "traffic", "street", "crowd", "city", "urban",
   "engine", "hum", "buzz", "background", "environment"]

def effect_keywords : List String :=
  ["crash", "bang", "slam", "knock", "hit", "impact",
   "glass", "break", "shatter", "smash",
   "door", "footstep", "walk", "step",
   "car", "horn", "brake", "screech",
   "gunshot", "explosion", "boom", "blast",
   "laugh", "scream", "shout", "yell", "cry"]

def music_keywords : List String :=
  ["music", "song", "melody", "instrument", "guitar", "piano",
   "drum", "bass", "violin", "singing", "vocal", "choir"]

/-- `categorize_sound`: categorize a detected sound into ambient, effect,
music, or other. -/
def categorize_sound (label : String) : String :=
  let label_lower := pyLower label
  if music_keywords.any (fun k => strIn k label_lower) then "music"
  else if ambient_keywords.any (fun k => strIn k label_lower) then "ambient"
  else if effect_keywords.any (fun k => strIn k label_lower) then "effect"
  else "other"

/-! ## `detect_sounds` event construction (app.py, lines 174-238) -/

/-- 10ms per frame (320 samples at 32kHz), app.py line 175. -/
def frame_duration : ℚ := 1 / 100

/-- `class_probs > threshold` elementwise. -/
def above_threshold (class_probs : List ℚ) (threshold : ℚ) : List Bool :=
  class_probs.map (fun p => decide (threshold < p))

/-- `np.mean` as sum over length (only applied to nonempty slices). -/
def npMean (l : List ℚ) : ℚ := l.sum / l.length

/-- Python slice `l[s:e]`. -/
def pySlice (l : List ℚ) (s e : Nat) : List ℚ := (l.drop s).take (e - s)

/-- The event dict appended at app.py lines 199-206. -/
structure SoundEvent where
  label : String
  category : String
  start_time : ℚ
  end_time : ℚ
  duration : ℚ
  confidence : ℚ
  deriving DecidableEq, Repr

/-- Build one event for the segment `p = (start, end)` of a class. -/
def mkEvent (lab : String) (class_probs : List ℚ) (p : Nat × Nat) : SoundEvent :=
  { label := lab
    category := categorize_sound lab
    start_time := (p.1 : ℚ) * frame_duration
    end_time := (p.2 : ℚ) * frame_duration
    duration := ((p.2 : ℚ) - (p.1 : ℚ)) * frame_duration
    confidence := npMean (pySlice class_probs p.1 p.2) }

/-- The `for start, end in zip(starts, ends)` loop with its
minimum-duration filter (app.py lines 194-206). -/
def segLoopEvents (lab : String) (class_probs : List ℚ) (min_duration : ℚ) :
    List (Nat × Nat) → List SoundEvent
  | [] => []
  | p :: rest =>
      (if min_duration ≤ ((p.2 : ℚ) - (p.1 : ℚ)) * frame_duration
        then [mkEvent lab class_probs p] else [])
        ++ segLoopEvents lab class_probs min_duration rest

/-- The body of the per-class loop (app.py lines 182-206): threshold the
framewise probabilities, skip the class when nothing is above threshold
(`continue`), otherwise emit the duration-filtered segments. -/
def eventsForClass (lab : String) (class_probs : List ℚ)
    (threshold min_duration : ℚ) : List SoundEvent :=
  let mask := above_threshold class_probs threshold
  if mask.any id then segLoopEvents lab class_probs min_duration (segPairs mask)
  else []

/-- Column `class_idx` of the framewise matrix (`framewise_data[:, class_idx]`). -/
def classProbs (framewise : List (List ℚ)) (class_idx : Nat) : List ℚ :=
  framewise.map (fun row => row.getD class_idx 0)

/-- All events accumulated over `for class_idx in range(len(labels))`. -/
def detectEvents (labels : List String) (framewise : List (List ℚ))
    (threshold min_duration : ℚ) : List SoundEvent :=
  ((List.range labels.length).map (fun class_idx =>
    eventsForClass (labels.getD class_idx "") (classProbs framewise class_idx)
      threshold min_duration)).flatten

/-- `events = sorted(events, key=lambda x: x['start_time'])` (a stable sort,
modelled by stable merge sort). -/
def sortEvents (events : List SoundEvent) : List SoundEvent :=
  events.mergeSort (fun e1 e2 => decide (e1.start_time ≤ e2.start_time))

/-- The `summary` object of the JSON response (app.py lines 227-232). -/
structure DetectSummary where
  ambient_count : Nat
  effect_count : Nat
  music_count : Nat
  other_count : Nat
  deriving DecidableEq, Repr

/-- The JSON response of `detect_sounds` (app.py lines 221-238). -/
structure DetectResponse where
  status : String
  duration : ℚ
  total_events : Nat
  events : List SoundEvent
  summary : DetectSummary
  threshold : ℚ
  min_duration : ℚ
  frame_duration_out : ℚ
  deriving DecidableEq, Repr

/-- Assemble the success response from the framewise matrix
(app.py lines 208-238). -/
def detectResponse (labels : List String) (framewise : List (List ℚ))
    (dur threshold min_duration : ℚ) : DetectResponse :=
  let events := sortEvents (detectEvents labels framewise threshold min_duration)
  { status := "success"
    duration := dur
    total_events := events.length
    events := events
    summary :=
      { ambient_count := (events.filter (fun e => e.category == "ambient")).length
        effect_count := (events.filter (fun e => e.category == "effect")).length
        music_count := (events.filter (fun e => e.category == "music")).length
        other_count := (events.filter (fun e => e.category == "other")).length }
    threshold := threshold
    min_duration := min_duration
    frame_duration_out := frame_duration }

/-- Outcome of the HTTP handler: a JSON response or an `HTTPException`. -/
inductive HttpResult where
  | ok (response : DetectResponse)
  | httpError (status : Nat) (detail : String)
  deriving DecidableEq, Repr

/-- The `try`/`except` wrapper of `detect_sounds` (app.py lines 129, 240-242):
any exception inside the body is surfaced as an HTTP 500 error. -/
def detect_sounds_handler (body : Except String DetectResponse) : HttpResult :=
  match body with
  | .ok r => .ok r
  | .error e => .httpError 500 ("Audio processing failed: " ++ e)

/-! ## Lazy model initialization (app.py, lines 38-48) -/

/-- `get_model`: construct the model only when the global is `None`; explicit
state passing for the global `sed_model`. -/
def get_model {Model : Type} (newModel : Model) (sed_model : Option Model) :
    Model × Option Model :=
  match sed_model with
  | none => (newModel, some newModel)
  | some m => (m, some m)

/-- The global `sed_model` after `n` calls to `get_model`, starting from the
initial `None` (app.py line 39). -/
def sed_state_after {Model : Type} (newModel : Model) : Nat → Option Model
  | 0 => none
  | n + 1 => (get_model newModel (sed_state_after newModel n)).2

/-! ## The VAD service (vad-service.py) -/

/-- The mono audio buffer and sample rate returned by `sf.read`. -/
structure VadInput where
  audio : List ℚ
  sample_rate : Nat

/-- `np.linspace(start, stop, num)` (endpoint included, numpy semantics). -/
def np_linspace (start stop : ℚ) (num : Nat) : List ℚ :=
  (List.range num).map (fun (j : Nat) =>
    if num ≤ 1 then start else start + (stop - start) * (j : ℚ) / ((num : ℚ) - 1))

/-- `np.interp` at one point for the uniform grid `xp = np.arange(len(fp))`
(the only grid used by `get_speech_duration`): clamp outside the grid,
linear interpolation between neighbouring samples inside (requires a
nonempty `fp`; numpy raises on an empty one). -/
def np_interp_grid (fp : List ℚ) (t : ℚ) : ℚ :=
  if t ≤ 0 then fp.getD 0 0
  else if (fp.length : ℚ) - 1 ≤ t then fp.getD (fp.length - 1) 0
  else
    let i : Nat := (⌊t⌋).toNat
    fp.getD i 0 + (fp.getD (i + 1) 0 - fp.getD i 0) * (t - (i : ℚ))

/-- `np.interp(x, np.arange(len(fp)), fp)`. -/
def np_interp (x : List ℚ) (fp : List ℚ) : List ℚ := x.map (np_interp_grid fp)

/-- `new_length = int(duration * 16000)` with `duration = len(audio) / sr`
(vad-service.py lines 47-48); `int` truncation is `floor` on this
nonnegative value. -/
def vad_new_length (audio : List ℚ) (sr : Nat) : Nat :=
  (⌊((audio.length : ℚ) / (sr : ℚ)) * 16000⌋).toNat

/-- Lines 45-53: resample to 16kHz by linear interpolation when the sample
rate differs from 16000, pass through otherwise. -/
def resample_to_16k (audio : List ℚ) (sr : Nat) : List ℚ :=
  if sr = 16000 then audio
  else np_interp (np_linspace 0 (audio.length : ℚ) (vad_new_length audio sr)) audio

/-- Result dict of `get_speech_duration`: the success shape (lines 76-88) or
the failure shape (lines 90-94).  A segment is `(start, end, duration)` in
seconds. -/
inductive SpeechResult where
  | ok (speech_duration : ℚ) (num_speech_segments : Nat)
      (segments : List (ℚ × ℚ × ℚ))
  | err (error : String)
  deriving DecidableEq, Repr

/-- The `success` key of the returned dict. -/
def SpeechResult.success : SpeechResult → Bool
  | .ok _ _ _ => true
  | .err _ => false

/-- The exception-free tail of `get_speech_duration` (lines 45-88), given the
Silero VAD model as an oracle `vad` from the 16kHz buffer to speech
timestamps in samples. -/
def get_speech_duration_core (vad : List ℚ → List (Nat × Nat))
    (input : VadInput) : SpeechResult :=
  let wav := resample_to_16k input.audio input.sample_rate
  let speech_timestamps := vad wav
  let total_speech_samples : Nat :=
    (speech_timestamps.map (fun seg => seg.2 - seg.1)).sum
  SpeechResult.ok ((total_speech_samples : ℚ) / 16000)
    speech_timestamps.length
    (speech_timestamps.map (fun seg =>
      ((seg.1 : ℚ) / 16000, (seg.2 : ℚ) / 16000, ((seg.2 : ℚ) - (seg.1 : ℚ)) / 16000)))

/-- `get_speech_duration` with its `try`/`except` (lines 27, 90-94): the
attempt either raises (model load / file read / any later step) or yields the
decoded input together with the VAD oracle. -/
def get_speech_duration
    (attempt : Except String (VadInput × (List ℚ → List (Nat × Nat)))) :
    SpeechResult :=
  match attempt with
  | .error e => SpeechResult.err e
  | .ok (input, vad) => get_speech_duration_core vad input

/-- `classification` from `ratio` (vad-service.py lines 119-133). -/
def classify_pacing (ratio : ℚ) : String :=
  if 97 / 100 ≤ ratio ∧ ratio ≤ 103 / 100 then "perfect"
  else if 90 / 100 ≤ ratio ∧ ratio < 97 / 100 then "slightly_fast"
  else if 75 / 100 ≤ ratio ∧ ratio < 90 / 100 then "fast"
  else if ratio < 75 / 100 then "critically_fast"
  else if 103 / 100 < ratio ∧ ratio ≤ 110 / 100 then "slightly_slow"
  else if 110 / 100 < ratio ∧ ratio ≤ 125 / 100 then "slow"
  else "critically_slow"

/-- The seven pacing regions named by the classification, as predicates on the
ratio. -/
def pacingRegions : List (String × (ℚ → Bool)) :=
  [("perfect", fun r => decide (97 / 100 ≤ r ∧ r ≤ 103 / 100)),
   ("slightly_fast", fun r => decide (90 / 100 ≤ r ∧ r < 97 / 100)),
   ("fast", fun r => decide (75 / 100 ≤ r ∧ r < 90 / 100)),
   ("critically_fast", fun r => decide (r < 75 / 100)),
   ("slightly_slow", fun r => decide (103 / 100 < r ∧ r ≤ 110 / 100)),
   ("slow", fun r => decide (110 / 100 < r ∧ r ≤ 125 / 100)),
   ("critically_slow", fun r => decide (125 / 100 < r))]

/-- Result dict of `analyze_pacing` (lines 107-111, 135-143). -/
inductive PacingResult where
  | ok (veo_speech_duration user_speech_duration ratio : ℚ)
      (classification : String) (veo_segments user_segments : Nat)
  | err (error : String)
  deriving DecidableEq, Repr

/-- The `success` key of the returned dict. -/
def PacingResult.success : PacingResult → Bool
  | .ok _ _ _ _ _ _ => true
  | .err _ => false

/-- `analyze_pacing` (lines 97-143), parameterized by the two
`get_speech_duration` attempts. -/
def analyze_pacing
    (veoAttempt userAttempt :
      Except String (VadInput × (List ℚ → List (Nat × Nat)))) : PacingResult :=
  match get_speech_duration veoAttempt with
  | .err e => PacingResult.err ("VEO audio error: " ++ e)
  | .ok veo_duration veo_segments _ =>
      match get_speech_duration userAttempt with
      | .err e => PacingResult.err ("User audio error: " ++ e)
      | .ok user_duration user_segments _ =>
          let ratio : ℚ := if 0 < veo_duration then user_duration / veo_duration else 0
          PacingResult.ok veo_duration user_duration ratio
            (classify_pacing ratio) veo_segments user_segments

theorem npDiff_paddedMask_aux (mask : List Bool) :
    ∀ prev : Bool, npDiff (maskInt prev :: (mask.map maskInt ++ [0])) = dseq prev mask := by
  induction mask with
  | nil => intro prev; simp [npDiff, dseq]
  | cons b rest ih =>
      intro prev
      simpa [npDiff, dseq] using ih b

theorem npDiff_paddedMask (mask : List Bool) :
    npDiff (paddedMask mask) = dseq false mask := by
  simpa [paddedMask, maskInt] using npDiff_paddedMask_aux mask false

/-! ### The zip of starts and ends equals the run-length encoding -/

theorem zipState_eq_rleGo (mask : List Bool) :
    ∀ (i : Nat) (o : Option Nat), zipState i o mask = rleGo i o mask := by
  induction mask with
  | nil =>
      intro i o
      cases o <;> simp [zipState, dseq, whereEqFrom, rleGo, maskInt]
  | cons b rest ih =>
      intro i o
      cases o with
      | none =>
          cases b with
          | false =>
              have h := ih (i + 1) none
              simp only [zipState] at h ⊢
              simpa [dseq, whereEqFrom, rleGo, maskInt] using h
          | true =>
              have h := ih (i + 1) (some i)
              simp only [zipState] at h ⊢
              simpa [dseq, whereEqFrom, rleGo, maskInt] using h
      | some s =>
          cases b with
          | false =>
              have h := ih (i + 1) none
              simp only [zipState] at h ⊢
              simpa [dseq, whereEqFrom, rleGo, maskInt] using h
          | true =>
              have h := ih (i + 1) (some s)
              simp only [zipState] at h ⊢
              simpa [dseq, whereEqFrom, rleGo, maskInt] using h

/-- The diff-based extraction agrees with the naive run-length encoding. -/
theorem segPairs_eq_rleRuns (mask : List Bool) : segPairs mask = rleRuns mask := by
  have h := zipState_eq_rleGo mask 0 none
  simpa [segPairs, segStarts, segEnds, npDiff_paddedMask, zipState, rleRuns] using h

/-! ### Shifting the scan index -/

theorem rleGo_shift (mask : List Bool) :
    ∀ (i k : Nat) (o : Option Nat),
      rleGo (i + k) (Option.map (· + k) o) mask
        = (rleGo i o mask).map (fun p => (p.1 + k, p.2 + k)) := by
  induction mask with
  | nil =>
      intro i k o
      cases o <;> simp [rleGo]
  | cons b rest ih =>
      intro i k o
      cases o with
      | none =>
          cases b with
          | false =>
              have h := ih (i + 1) k none
              simp only [rleGo, Option.map_none'] at h ⊢
              rw [show i + k + 1 = i + 1 + k by omega]
              simpa using h
          | true =>
              have h := ih (i + 1) k (some i)
              simp only [rleGo, Option.map_some'] at h ⊢
              rw [show i + k + 1 = i + 1 + k by omega]
              simpa using h
      | some s =>
          cases b with
          | false =>
              have h := ih (i + 1) k none
              simp only [rleGo, Option.map_none', Option.map_some'] at h ⊢
              rw [show i + k + 1 = i + 1 + k by omega]
              simpa using h
          | true =>
              have h := ih (i + 1) k (some s)
              simp only [rleGo, Option.map_some'] at h ⊢
              rw [show i + k + 1 = i + 1 + k by omega]
              simpa using h

theorem rleGo_none_shift (mask : List Bool) (k : Nat) :
    rleGo k none mask = (rleRuns mask).map (fun p => (p.1 + k, p.2 + k)) := by
  simpa [rleRuns] using rleGo_shift mask 0 k none

/-! ### Maximal runs of `true` in a mask -/

@[simp] theorem mget_nil (j : Nat) : mget [] j = false := rfl

@[simp] theorem mget_cons_zero (b : Bool) (l : List Bool) : mget (b :: l) 0 = b := rfl

@[simp] theorem mget_cons_succ (b : Bool) (l : List Bool) (j : Nat) :
    mget (b :: l) (j + 1) = mget l j := rfl

theorem mget_replicate_append (k : Nat) :
    ∀ (l : List Bool) (j : Nat),
      mget (List.replicate k true ++ l) j = if j < k then true else mget l (j - k) := by
  induction k with
  | zero => intro l j; simp
  | succ k ih =>
      intro l j
      cases j with
      | zero => simp [List.replicate_succ]
      | succ j =>
          simp only [List.replicate_succ, List.cons_append, mget_cons_succ, ih l j]
          by_cases h : j < k
          · simp [h, Nat.succ_lt_succ h]
          · have h' : ¬ j + 1 < k + 1 := by omega
            simp [h, h', Nat.succ_sub_succ]

theorem mget_replicate (k j : Nat) :
    mget (List.replicate k true) j = if j < k then true else false := by
  simpa using mget_replicate_append k [] j

theorem isMaxRun_nil (a b : Nat) : ¬ IsMaxRun [] a b := by
  rintro ⟨h1, h2, -, -, -⟩
  simp at h2
  omega

theorem isMaxRun_cons_false (l : List Bool) (a b : Nat) :
    IsMaxRun (false :: l) a b ↔ 1 ≤ a ∧ IsMaxRun l (a - 1) (b - 1) := by
  constructor
  · rintro ⟨hab, hb, hall, hleft, hright⟩
    have ha : 1 ≤ a := by
      rcases Nat.eq_zero_or_pos a with h0 | h1
      · exfalso
        have ht := hall 0 (by omega) (by omega)
        simp at ht
      · exact h1
    refine ⟨ha, by omega, by simp at hb; omega, ?_, ?_, ?_⟩
    · intro j hj1 hj2
      have := hall (j + 1) (by omega) (by omega)
      simpa using this
    · rcases hleft with h0 | hf
      · omega
      · rcases Nat.eq_or_lt_of_le ha with h1 | h2
        · left; omega
        · right
          have e1 : a - 1 = (a - 2) + 1 := by omega
          rw [e1] at hf
          have e2 : a - 1 - 1 = a - 2 := by omega
          rw [e2]
          simpa using hf
    · rcases hright with h0 | hf
      · left; simp at h0 ⊢; omega
      · right
        have e1 : b = (b - 1) + 1 := by omega
        rw [e1] at hf
        simpa using hf
  · rintro ⟨ha, hab, hb, hall, hleft, hright⟩
    have hb2 : 2 ≤ b := by omega
    refine ⟨by omega, by simp; omega, ?_, ?_, ?_⟩
    · intro j hj1 hj2
      have e1 : j = (j - 1) + 1 := by omega
      rw [e1, mget_cons_succ]
      exact hall (j - 1) (by omega) (by omega)
    · rcases Nat.eq_or_lt_of_le ha with h1 | h2
      · right
        have e1 : a - 1 = 0 := by omega
        rw [e1]; rfl
      · rcases hleft with h0 | hf
        · omega
        · right
          have e1 : a - 1 = (a - 2) + 1 := by omega
          rw [e1, mget_cons_succ]
          have e2 : a - 1 - 1 = a - 2 := by omega
          rw [e2] at hf
          exact hf
    · rcases hright with h0 | hf
      · left; simp; omega
      · right
        have e1 : b = (b - 1) + 1 := by omega
        rw [e1, mget_cons_succ]
        exact hf

theorem isMaxRun_cons_true_succ (l : List Bool) (a b : Nat) :
    IsMaxRun (true :: l) (a + 1) (b + 1) ↔ 1 ≤ a ∧ IsMaxRun l a b := by
  constructor
  · rintro ⟨hab, hb, hall, hleft, hright⟩
    have hmf : mget (true :: l) a = false := by
      rcases hleft with h0 | hf
      · omega
      · simpa using hf
    have ha : 1 ≤ a := by
      rcases Nat.eq_zero_or_pos a with h0 | h1
      · exfalso; rw [h0] at hmf; simp at hmf
      · exact h1
    refine ⟨ha, by omega, by simp at hb; omega, ?_, ?_, ?_⟩
    · intro j hj1 hj2
      have := hall (j + 1) (by omega) (by omega)
      simpa using this
    · right
      have e1 : a = (a - 1) + 1 := by omega
      rw [e1, mget_cons_succ] at hmf
      exact hmf
    · rcases hright with h0 | hf
      · left; simp at h0 ⊢; omega
      · right; simpa using hf
  · rintro ⟨ha, hab, hb, hall, hleft, hright⟩
    refine ⟨by omega, by simp; omega, ?_, ?_, ?_⟩
    · intro j hj1 hj2
      have e1 : j = (j - 1) + 1 := by omega
      rw [e1, mget_cons_succ]
      exact hall (j - 1) (by omega) (by omega)
    · right
      simp only [Nat.add_sub_cancel]
      rcases hleft with h0 | hf
      · omega
      · have e1 : a = (a - 1) + 1 := by omega
        rw [e1, mget_cons_succ]
        exact hf
    · rcases hright with h0 | hf
      · left; simp; omega
      · right
        simpa using hf

theorem isMaxRun_replicate (k a b : Nat) :
    IsMaxRun (List.replicate k true) a b ↔ 1 ≤ k ∧ a = 0 ∧ b = k := by
  constructor
  · rintro ⟨hab, hb, hall, hleft, hright⟩
    simp only [List.length_replicate] at hb
    have hk : 1 ≤ k := by omega
    have ha : a = 0 := by
      rcases hleft with h0 | hf
      · exact h0
      · exfalso
        rw [mget_replicate] at hf
        have : a - 1 < k := by omega
        simp [this] at hf
    have hbk : b = k := by
      rcases hright with h0 | hf
      · simpa using h0
      · rw [mget_replicate] at hf
        by_cases h : b < k
        · simp [h] at hf
        · omega
    exact ⟨hk, ha, hbk⟩
  · rintro ⟨hk, ha, hb⟩
    subst ha; subst hb
    refine ⟨by omega, by simp, ?_, Or.inl rfl, Or.inl (by simp)⟩
    intro j hj1 hj2
    rw [mget_replicate]
    simp [hj2]

theorem isMaxRun_replicate_false_zero (k : Nat) (rest : List Bool) (b : Nat) :
    IsMaxRun (List.replicate (k + 1) true ++ false :: rest) 0 b ↔ b = k + 1 := by
  constructor
  · rintro ⟨hb0, hlen, hall, -, hright⟩
    have hble : b ≤ k + 1 := by
      by_contra h
      have ht := hall (k + 1) (by omega) (by omega)
      rw [mget_replicate_append] at ht
      simp at ht
    have hbge : k + 1 ≤ b := by
      rcases hright with h0 | hf
      · simp at h0; omega
      · rw [mget_replicate_append] at hf
        by_cases h : b < k + 1
        · simp [h] at hf
        · omega
    omega
  · intro hb
    subst hb
    refine ⟨by omega,
      by simp only [List.length_append, List.length_replicate, List.length_cons]; omega,
      ?_, Or.inl rfl, Or.inr ?_⟩
    · intro j hj1 hj2
      rw [mget_replicate_append]
      simp [hj2]
    · rw [mget_replicate_append]
      simp

theorem isMaxRun_replicate_false (rest : List Bool) :
    ∀ (k a b : Nat),
      IsMaxRun (List.replicate k true ++ false :: rest) a b ↔
        ((1 ≤ k ∧ a = 0 ∧ b = k) ∨
          (k + 1 ≤ a ∧ IsMaxRun rest (a - (k + 1)) (b - (k + 1)))) := by
  intro k
  induction k with
  | zero =>
      intro a b
      simpa using isMaxRun_cons_false rest a b
  | succ k ih =>
      intro a b
      have hlist : List.replicate (k + 2) true ++ false :: rest
          = true :: (List.replicate (k + 1) true ++ false :: rest) := by
        simp [List.replicate_succ]
      cases a with
      | zero =>
          rw [isMaxRun_replicate_false_zero]
          constructor
          · intro hb; exact Or.inl ⟨by omega, rfl, by omega⟩
          · rintro (⟨-, -, hb⟩ | ⟨hk, -⟩)
            · omega
            · omega
      | succ a =>
          cases b with
          | zero =>
              constructor
              · rintro ⟨hab, -, -, -, -⟩; omega
              · rintro (⟨-, -, hb⟩ | ⟨-, ⟨hab, -, -, -, -⟩⟩) <;> omega
          | succ b =>
              rw [show List.replicate (k + 1) true ++ false :: rest
                  = true :: (List.replicate k true ++ false :: rest) by
                    simp [List.replicate_succ]]
              rw [isMaxRun_cons_true_succ, ih a b]
              constructor
              · rintro ⟨ha, h | ⟨hk, hm⟩⟩
                · omega
                · refine Or.inr ⟨by omega, ?_⟩
                  have e1 : a - (k + 1) = a + 1 - (k + 2) := by omega
                  have e2 : b - (k + 1) = b + 1 - (k + 2) := by omega
                  rwa [e1, e2] at hm
              · rintro (⟨-, h0, -⟩ | ⟨hk, hm⟩)
                · omega
                · refine ⟨by omega, Or.inr ⟨by omega, ?_⟩⟩
                  have e1 : a - (k + 1) = a + 1 - (k + 2) := by omega
                  have e2 : b - (k + 1) = b + 1 - (k + 2) := by omega
                  rwa [e1, e2]

theorem rleRuns_open_spec (mask : List Bool) :
    (∀ a b : Nat, ((a, b) ∈ rleRuns mask ↔ IsMaxRun mask a b)) ∧
    (∀ k a b : Nat, ((a, b) ∈ rleGo (k + 1) (some 0) mask ↔
      IsMaxRun (List.replicate (k + 1) true ++ mask) a b)) := by
  induction mask with
  | nil =>
      constructor
      · intro a b
        simp only [rleRuns, rleGo, List.not_mem_nil, false_iff]
        exact isMaxRun_nil a b
      · intro k a b
        rw [List.append_nil]
        simp only [rleGo, List.mem_singleton, Prod.mk.injEq, isMaxRun_replicate]
        omega
  | cons hd rest ih =>
      obtain ⟨ihR, ihO⟩ := ih
      constructor
      · intro a b
        cases hd with
        | false =>
            rw [show rleRuns (false :: rest) = rleGo 1 none rest by simp [rleRuns, rleGo]]
            rw [rleGo_none_shift rest 1, isMaxRun_cons_false]
            constructor
            · intro hmem
              rcases List.mem_map.mp hmem with ⟨⟨a', b'⟩, hp, heq⟩
              simp only [Prod.mk.injEq] at heq
              have hm := (ihR a' b').mp hp
              refine ⟨by omega, ?_⟩
              have e1 : a - 1 = a' := by omega
              have e2 : b - 1 = b' := by omega
              rw [e1, e2]; exact hm
            · rintro ⟨ha, hm⟩
              have hb2 : 2 ≤ b := by
                have := hm.1; omega
              refine List.mem_map.mpr ⟨(a - 1, b - 1), (ihR _ _).mpr hm, ?_⟩
              simp only [Prod.mk.injEq]
              constructor <;> omega
        | true =>
            have h := ihO 0 a b
            simpa [rleRuns, rleGo] using h
      · intro k a b
        cases hd with
        | true =>
            have h := ihO (k + 1) a b
            have hl : List.replicate (k + 1) true ++ (true :: rest)
                = List.replicate (k + 2) true ++ rest := by
              rw [List.replicate_succ' (k + 1), List.append_assoc]
              simp
            rw [show rleGo (k + 1) (some 0) (true :: rest)
                = rleGo (k + 2) (some 0) rest by simp [rleGo], hl]
            exact h
        | false =>
            rw [isMaxRun_replicate_false rest (k + 1) a b]
            rw [show rleGo (k + 1) (some 0) (false :: rest)
                = (0, k + 1) :: rleGo (k + 2) none rest by simp [rleGo]]
            rw [rleGo_none_shift rest (k + 2)]
            simp only [List.mem_cons, Prod.mk.injEq, List.mem_map]
            constructor
            · rintro (⟨ea, eb⟩ | ⟨⟨a', b'⟩, hp, heq⟩)
              · exact Or.inl ⟨by omega, by omega, by omega⟩
              · simp only [Prod.mk.injEq] at heq
                refine Or.inr ⟨by omega, ?_⟩
                have hm := (ihR a' b').mp hp
                have e1 : a - (k + 2) = a' := by omega
                have e2 : b - (k + 2) = b' := by omega
                rw [e1, e2]; exact hm
            · rintro (⟨-, ea, eb⟩ | ⟨hk, hm⟩)
              · exact Or.inl ⟨by omega, by omega⟩
              · right
                have hb : k + 2 < b := by
                  have := hm.1; omega
                refine ⟨(a - (k + 2), b - (k + 2)), (ihR _ _).mpr hm, ?_⟩
                simp only [Prod.mk.injEq]
                constructor <;> omega

/-- Membership in the run-length encoding characterizes maximal `true` runs. -/
theorem mem_rleRuns_iff (mask : List Bool) (a b : Nat) :
    (a, b) ∈ rleRuns mask ↔ IsMaxRun mask a b :=
  (rleRuns_open_spec mask).1 a b

/-- The padded diff sequence carries one more `-1` than `1` exactly when a run
is open, so the extracted starts and ends lists have equal length. -/
theorem whereEqFrom_length_dseq (mask : List Bool) :
    ∀ (i : Nat) (prev : Bool),
      (whereEqFrom 1 i (dseq prev mask)).length + (if prev then 1 else 0)
        = (whereEqFrom (-1) i (dseq prev mask)).length := by
  induction mask with
  | nil =>
      intro i prev
      cases prev <;> simp [dseq, whereEqFrom, maskInt]
  | cons b rest ih =>
      intro i prev
      cases prev <;> cases b
      · have h := ih (i + 1) false
        simp [dseq, whereEqFrom, maskInt] at h ⊢
        omega
      · have h := ih (i + 1) true
        simp [dseq, whereEqFrom, maskInt] at h ⊢
        omega
      · have h := ih (i + 1) false
        simp [dseq, whereEqFrom, maskInt] at h ⊢
        omega
      · have h := ih (i + 1) true
        simp [dseq, whereEqFrom, maskInt] at h ⊢
        omega

theorem segStarts_length_eq_segEnds (mask : List Bool) :
    (segStarts mask).length = (segEnds mask).length := by
  have h := whereEqFrom_length_dseq mask 0 false
  simpa [segStarts, segEnds, npDiff_paddedMask] using h

/-- C1: the first-difference segment extraction of `detect_sounds` (diff of the
zero-padded 0/1 mask, starts at `diff == 1`, ends at `diff == -1`) yields
exactly the maximal contiguous runs of `true` frames: starts and ends have
equal length, every pair satisfies `start < end`, the pairing equals a naive
single-pass run-length encoding of the mask, and the half-open intervals are
precisely the maximal runs. -/
theorem detect_segment_extraction_spec (mask : List Bool) :
    (segStarts mask).length = (segEnds mask).length ∧
    segPairs mask = rleRuns mask ∧
    (∀ p ∈ segPairs mask, p.1 < p.2) ∧
    (∀ a b : Nat, ((a, b) ∈ segPairs mask ↔ IsMaxRun mask a b)) := by
  refine ⟨segStarts_length_eq_segEnds mask, segPairs_eq_rleRuns mask, ?_, ?_⟩
  · rintro ⟨a, b⟩ hp
    rw [segPairs_eq_rleRuns] at hp
    exact ((mem_rleRuns_iff mask a b).mp hp).1
  · intro a b
    rw [segPairs_eq_rleRuns]
    exact mem_rleRuns_iff mask a b

/-! ## Threshold filtering (C2) -/

theorem above_threshold_mget (class_probs : List ℚ) (t : ℚ) :
    ∀ i, i < class_probs.length →
      mget (above_threshold class_probs t) i = decide (t < class_probs.getD i 0) := by
  induction class_probs with
  | nil => intro i hi; simp at hi
  | cons p rest ih =>
      intro i hi
      cases i with
      | zero => simp [above_threshold, mget]
      | succ i =>
          have h := ih i (by simpa using hi)
          simpa [above_threshold] using h

theorem mget_of_length_le (mask : List Bool) : ∀ j, mask.length ≤ j → mget mask j = false := by
  induction mask with
  | nil => intro j _; rfl
  | cons b rest ih =>
      intro j hj
      cases j with
      | zero => simp at hj
      | succ j => simpa using ih j (by simpa using hj)

/-- C2: a frame belongs to the boolean mask used for segment extraction iff
its framewise probability is strictly greater than the threshold; a frame
whose probability equals the threshold exactly is excluded; and a class with
no frame above the threshold contributes no events. -/
theorem threshold_filtering_spec (class_probs : List ℚ) (t : ℚ)
    (lab : String) (md : ℚ) :
    (∀ i, i < class_probs.length →
      (mget (above_threshold class_probs t) i = true ↔ t < class_probs.getD i 0)) ∧
    (∀ i, class_probs.getD i 0 = t → mget (above_threshold class_probs t) i = false) ∧
    ((∀ p ∈ class_probs, ¬ t < p) → eventsForClass lab class_probs t md = []) := by
  refine ⟨?_, ?_, ?_⟩
  · intro i hi
    rw [above_threshold_mget class_probs t i hi]
    simp
  · intro i hteq
    by_cases hi : i < class_probs.length
    · rw [above_threshold_mget class_probs t i hi, hteq]
      simp
    · exact mget_of_length_le _ i (by simpa [above_threshold] using Nat.le_of_not_lt hi)
  · intro hall
    have hany : (above_threshold class_probs t).any id = false := by
      rw [List.any_eq_false]
      intro x hx
      rcases List.mem_map.mp hx with ⟨p, hp, rfl⟩
      simpa using hall p hp
    simp [eventsForClass, hany]

/-- Witness for the threshold filtering theorem: with probabilities
`[1/2, 3/10]` and threshold `3/10`, frame 0 is in the mask, frame 1 (equal to
the threshold) is not; and a class with all probabilities below the threshold
gives no events. -/
theorem threshold_filtering_spec_witness :
    mget (above_threshold [(1 : ℚ)/2, (3 : ℚ)/10] ((3 : ℚ)/10)) 0 = true ∧
    mget (above_threshold [(1 : ℚ)/2, (3 : ℚ)/10] ((3 : ℚ)/10)) 1 = false ∧
    eventsForClass "Silence" [(1 : ℚ)/5] ((3 : ℚ)/10) ((1 : ℚ)/10) = [] := by
  refine ⟨?_, ?_, ?_⟩
  · exact ((threshold_filtering_spec [(1 : ℚ)/2, (3 : ℚ)/10] ((3 : ℚ)/10)
      "Silence" ((1 : ℚ)/10)).1 0 (by norm_num)).mpr (by norm_num)
  · exact (threshold_filtering_spec [(1 : ℚ)/2, (3 : ℚ)/10] ((3 : ℚ)/10)
      "Silence" ((1 : ℚ)/10)).2.1 1 (by norm_num [List.getD])
  · exact (threshold_filtering_spec [(1 : ℚ)/5] ((3 : ℚ)/10)
      "Silence" ((1 : ℚ)/10)).2.2 (by intro p hp; simp at hp; subst hp; norm_num)

/-! ## Minimum-duration filtering (C3) and per-event invariants (C9) -/

theorem segLoopEvents_eq_filter_map (lab : String) (class_probs : List ℚ) (md : ℚ) :
    ∀ pairs : List (Nat × Nat),
      segLoopEvents lab class_probs md pairs
        = (pairs.filter
            (fun p => decide (md ≤ ((p.2 : ℚ) - (p.1 : ℚ)) * frame_duration))).map
              (mkEvent lab class_probs) := by
  intro pairs
  induction pairs with
  | nil => simp [segLoopEvents]
  | cons p rest ih =>
      by_cases h : md ≤ ((p.2 : ℚ) - (p.1 : ℚ)) * frame_duration
      · simp [segLoopEvents, h, List.filter_cons, ih]
      · simp [segLoopEvents, h, List.filter_cons, ih]

theorem mget_true_mem (mask : List Bool) : ∀ j, mget mask j = true → true ∈ mask := by
  induction mask with
  | nil => intro j h; simp at h
  | cons b rest ih =>
      intro j h
      cases j with
      | zero => simp at h; simp [h]
      | succ j => exact List.mem_cons_of_mem _ (ih j h)

theorem segPairs_any (mask : List Bool) (s e : Nat) (hp : (s, e) ∈ segPairs mask) :
    mask.any id = true := by
  rw [segPairs_eq_rleRuns] at hp
  have hm := (mem_rleRuns_iff mask s e).mp hp
  have hs : mget mask s = true := hm.2.2.1 s le_rfl hm.1
  rw [List.any_eq_true]
  exact ⟨true, mget_true_mem mask s hs, rfl⟩

theorem mkEvent_pair_inj (lab : String) (class_probs : List ℚ) (p q : Nat × Nat)
    (h : mkEvent lab class_probs p = mkEvent lab class_probs q) : p = q := by
  have h1 : (p.1 : ℚ) * frame_duration = (q.1 : ℚ) * frame_duration :=
    congrArg SoundEvent.start_time h
  have h2 : (p.2 : ℚ) * frame_duration = (q.2 : ℚ) * frame_duration :=
    congrArg SoundEvent.end_time h
  have hfd : (frame_duration : ℚ) ≠ 0 := by norm_num [frame_duration]
  have e1 : (p.1 : ℚ) = (q.1 : ℚ) := mul_right_cancel₀ hfd h1
  have e2 : (p.2 : ℚ) = (q.2 : ℚ) := mul_right_cancel₀ hfd h2
  exact Prod.ext (Nat.cast_injective e1) (Nat.cast_injective e2)

/-- C3: a contiguous above-threshold run `[start, end)` is emitted as an event
iff `(end - start) * frame_duration ≥ min_duration`, and every emitted event
carries `start_time = start * frame_duration`,
`end_time = end * frame_duration` and `duration = end_time - start_time`. -/
theorem min_duration_filtering_spec (lab : String) (class_probs : List ℚ)
    (t md : ℚ) (s e : Nat)
    (hp : (s, e) ∈ segPairs (above_threshold class_probs t)) :
    (mkEvent lab class_probs (s, e) ∈ eventsForClass lab class_probs t md ↔
      md ≤ ((e : ℚ) - (s : ℚ)) * frame_duration) ∧
    (mkEvent lab class_probs (s, e)).start_time = (s : ℚ) * frame_duration ∧
    (mkEvent lab class_probs (s, e)).end_time = (e : ℚ) * frame_duration ∧
    (mkEvent lab class_probs (s, e)).duration
      = (mkEvent lab class_probs (s, e)).end_time
        - (mkEvent lab class_probs (s, e)).start_time := by
  have hany := segPairs_any _ s e hp
  refine ⟨?_, rfl, rfl, ?_⟩
  · rw [show eventsForClass lab class_probs t md
        = segLoopEvents lab class_probs md (segPairs (above_threshold class_probs t)) by
          simp [eventsForClass, hany]]
    rw [segLoopEvents_eq_filter_map]
    constructor
    · intro hmem
      rcases List.mem_map.mp hmem with ⟨q, hq, heq⟩
      have hqe := mkEvent_pair_inj lab class_probs q (s, e) heq
      subst hqe
      have := List.of_mem_filter hq
      simpa using this
    · intro hcond
      exact List.mem_map.mpr
        ⟨(s, e), List.mem_filter.mpr ⟨hp, by simpa using hcond⟩, rfl⟩
  · show ((e : ℚ) - (s : ℚ)) * frame_duration
      = (e : ℚ) * frame_duration - (s : ℚ) * frame_duration
    ring

theorem above_threshold_half :
    above_threshold [(1 : ℚ)/2] ((3 : ℚ)/10) = [true] := by
  norm_num [above_threshold]

theorem segPairs_half :
    segPairs (above_threshold [(1 : ℚ)/2] ((3 : ℚ)/10)) = [(0, 1)] := by
  rw [above_threshold_half]
  decide

/-- Witness for C3: for probabilities `[1/2]` and threshold `3/10`, the run
`[0, 1)` lasts `0.01s`, meets `min_duration = 0.01`, and yields an event whose
duration is the difference of its endpoint times. -/
theorem min_duration_filtering_spec_witness :
    mkEvent "Silence" [(1 : ℚ)/2] (0, 1)
        ∈ eventsForClass "Silence" [(1 : ℚ)/2] ((3 : ℚ)/10) ((1 : ℚ)/100) ∧
    (mkEvent "Silence" [(1 : ℚ)/2] (0, 1)).duration
      = (mkEvent "Silence" [(1 : ℚ)/2] (0, 1)).end_time
        - (mkEvent "Silence" [(1 : ℚ)/2] (0, 1)).start_time := by
  have h := min_duration_filtering_spec "Silence" [(1 : ℚ)/2] ((3 : ℚ)/10)
    ((1 : ℚ)/100) 0 1 (by rw [segPairs_half]; simp)
  exact ⟨h.1.mpr (by norm_num [frame_duration]), h.2.2.2⟩

theorem pySlice_length (l : List ℚ) (s e : Nat) (he : e ≤ l.length) :
    (pySlice l s e).length = e - s := by
  simp [pySlice]
  omega

theorem pySlice_mem (l : List ℚ) (s e : Nat) (he : e ≤ l.length) (x : ℚ)
    (hx : x ∈ pySlice l s e) : ∃ j, s ≤ j ∧ j < e ∧ l.getD j 0 = x := by
  rcases List.mem_iff_getElem.mp hx with ⟨i, hlen, hget⟩
  have hes : i < e - s := by
    have hl := pySlice_length l s e he
    omega
  have hsi : s + i < l.length := by omega
  refine ⟨s + i, by omega, by omega, ?_⟩
  rw [List.getD_eq_getElem l 0 hsi]
  simp only [pySlice] at hget
  rw [List.getElem_take, List.getElem_drop] at hget
  exact hget

theorem sum_lt_of_forall_lt (t : ℚ) :
    ∀ l : List ℚ, l ≠ [] → (∀ x ∈ l, t < x) → (l.length : ℚ) * t < l.sum := by
  intro l
  induction l with
  | nil => intro h; exact absurd rfl h
  | cons x rest ih =>
      intro _ hall
      rcases eq_or_ne rest [] with hr | hr
      · subst hr; simpa using hall x (by simp)
      · have h1 := ih hr (fun y hy => hall y (List.mem_cons_of_mem _ hy))
        have h2 := hall x (by simp)
        simp only [List.sum_cons, List.length_cons]
        push_cast
        linarith

theorem npMean_gt (t : ℚ) (l : List ℚ) (hne : l ≠ []) (hall : ∀ x ∈ l, t < x) :
    t < npMean l := by
  have hlen : 0 < (l.length : ℚ) := by
    have := List.length_pos.mpr hne
    exact_mod_cast this
  have hsum := sum_lt_of_forall_lt t l hne hall
  rw [npMean, lt_div_iff₀ hlen]
  linarith

/-- C9: every event emitted by `detect_sounds` has `start_time < end_time`,
and its confidence (the mean of the class probabilities over the segment's
frames) is strictly greater than the threshold. -/
theorem event_invariants_spec (lab : String) (class_probs : List ℚ) (t md : ℚ)
    (ev : SoundEvent) (hev : ev ∈ eventsForClass lab class_probs t md) :
    ev.start_time < ev.end_time ∧ t < ev.confidence := by
  by_cases hany : (above_threshold class_probs t).any id
  case neg => simp [eventsForClass, hany] at hev
  rw [show eventsForClass lab class_probs t md
      = segLoopEvents lab class_probs md (segPairs (above_threshold class_probs t)) by
        simp [eventsForClass, hany]] at hev
  rw [segLoopEvents_eq_filter_map] at hev
  rcases List.mem_map.mp hev with ⟨⟨s, e⟩, hq, rfl⟩
  have hpairs : (s, e) ∈ segPairs (above_threshold class_probs t) :=
    List.mem_of_mem_filter hq
  rw [segPairs_eq_rleRuns] at hpairs
  obtain ⟨hse, hlen, hall, -, -⟩ := (mem_rleRuns_iff _ s e).mp hpairs
  have hlen' : e ≤ class_probs.length := by
    simpa [above_threshold] using hlen
  constructor
  · show (s : ℚ) * frame_duration < (e : ℚ) * frame_duration
    exact mul_lt_mul_of_pos_right (by exact_mod_cast hse)
      (by norm_num [frame_duration])
  · show t < npMean (pySlice class_probs s e)
    apply npMean_gt
    · intro hcon
      have hl := pySlice_length class_probs s e hlen'
      rw [hcon] at hl
      simp at hl
      omega
    · intro x hx
      rcases pySlice_mem class_probs s e hlen' x hx with ⟨j, hj1, hj2, hjx⟩
      have hmj := hall j hj1 hj2
      rw [above_threshold_mget class_probs t j (lt_of_lt_of_le hj2 hlen')] at hmj
      rw [← hjx]
      simpa using hmj

theorem eventsForClass_half :
    eventsForClass "Silence" [(1 : ℚ)/2] ((3 : ℚ)/10) ((1 : ℚ)/100)
      = [mkEvent "Silence" [(1 : ℚ)/2] (0, 1)] := by
  simp only [eventsForClass, above_threshold_half,
    show segPairs [true] = [(0, 1)] from by decide]
  norm_num [segLoopEvents, frame_duration]

/-- Witness for C9: the single event detected on probabilities `[1/2]` at
threshold `3/10` starts before it ends and has confidence above the
threshold. -/
theorem event_invariants_spec_witness :
    (mkEvent "Silence" [(1 : ℚ)/2] (0, 1)).start_time
        < (mkEvent "Silence" [(1 : ℚ)/2] (0, 1)).end_time ∧
    (3 : ℚ)/10 < (mkEvent "Silence" [(1 : ℚ)/2] (0, 1)).confidence :=
  event_invariants_spec "Silence" [(1 : ℚ)/2] ((3 : ℚ)/10) ((1 : ℚ)/100)
    (mkEvent "Silence" [(1 : ℚ)/2] (0, 1)) (by rw [eventsForClass_half]; simp)

/-! ## Response shape: sortedness and summary counts (C8) -/

theorem categorize_sound_mem_four (lab : String) :
    categorize_sound lab = "music" ∨ categorize_sound lab = "ambient" ∨
    categorize_sound lab = "effect" ∨ categorize_sound lab = "other" := by
  simp only [categorize_sound]
  split_ifs <;> simp

theorem eventsForClass_category (lab : String) (probs : List ℚ) (t md : ℚ)
    (e : SoundEvent) (he : e ∈ eventsForClass lab probs t md) :
    e.category = categorize_sound lab := by
  by_cases hany : (above_threshold probs t).any id
  · rw [show eventsForClass lab probs t md
        = segLoopEvents lab probs md (segPairs (above_threshold probs t)) by
          simp [eventsForClass, hany]] at he
    rw [segLoopEvents_eq_filter_map] at he
    rcases List.mem_map.mp he with ⟨q, -, rfl⟩
    rfl
  · simp [eventsForClass, hany] at he

theorem detectEvents_category (labels : List String) (framewise : List (List ℚ))
    (t md : ℚ) (e : SoundEvent) (he : e ∈ detectEvents labels framewise t md) :
    e.category = "music" ∨ e.category = "ambient" ∨
    e.category = "effect" ∨ e.category = "other" := by
  simp only [detectEvents, List.mem_flatten, List.mem_map] at he
  rcases he with ⟨l, ⟨idx, -, rfl⟩, hel⟩
  rw [eventsForClass_category _ _ _ _ e hel]
  exact categorize_sound_mem_four _

theorem four_category_counts (evs : List SoundEvent)
    (h : ∀ e ∈ evs, e.category = "music" ∨ e.category = "ambient" ∨
         e.category = "effect" ∨ e.category = "other") :
    (evs.filter (fun e => e.category == "ambient")).length
      + (evs.filter (fun e => e.category == "effect")).length
      + (evs.filter (fun e => e.category == "music")).length
      + (evs.filter (fun e => e.category == "other")).length = evs.length := by
  induction evs with
  | nil => simp
  | cons e rest ih =>
      have hrest := ih (fun x hx => h x (List.mem_cons_of_mem _ hx))
      rcases h e (by simp) with hc | hc | hc | hc <;>
        · simp [List.filter_cons, hc]
          omega

theorem sortEvents_sorted (evs : List SoundEvent) :
    List.Pairwise (fun e1 e2 : SoundEvent => e1.start_time ≤ e2.start_time)
      (sortEvents evs) := by
  have h := @List.sorted_mergeSort SoundEvent
    (fun e1 e2 => decide (e1.start_time ≤ e2.start_time))
    (fun a b c hab hbc => by
      simp only [decide_eq_true_eq] at *
      exact le_trans hab hbc)
    (fun a b => by
      simp only [Bool.or_eq_true, decide_eq_true_eq]
      exact le_total _ _)
    evs
  exact h.imp (fun hab => by simpa using hab)

theorem sortEvents_perm (evs : List SoundEvent) : (sortEvents evs).Perm evs :=
  List.mergeSort_perm evs _

/-- C8: the events list of a successful `detect_sounds` response is sorted by
nondecreasing `start_time`, `total_events` is its length, the four summary
counts sum to `total_events`, and `categorize_sound` assigns one of the four
categories to every label. -/
theorem detect_response_spec (labels : List String) (framewise : List (List ℚ))
    (dur t md : ℚ) :
    List.Pairwise (fun e1 e2 : SoundEvent => e1.start_time ≤ e2.start_time)
      (detectResponse labels framewise dur t md).events ∧
    (detectResponse labels framewise dur t md).total_events
      = (detectResponse labels framewise dur t md).events.length ∧
    (detectResponse labels framewise dur t md).summary.ambient_count
      + (detectResponse labels framewise dur t md).summary.effect_count
      + (detectResponse labels framewise dur t md).summary.music_count
      + (detectResponse labels framewise dur t md).summary.other_count
      = (detectResponse labels framewise dur t md).total_events ∧
    (∀ lab : String, categorize_sound lab = "music" ∨ categorize_sound lab = "ambient"
      ∨ categorize_sound lab = "effect" ∨ categorize_sound lab = "other") := by
  refine ⟨sortEvents_sorted _, rfl, ?_, categorize_sound_mem_four⟩
  have hall : ∀ e ∈ sortEvents (detectEvents labels framewise t md),
      e.category = "music" ∨ e.category = "ambient" ∨
      e.category = "effect" ∨ e.category = "other" := by
    intro e he
    exact detectEvents_category labels framewise t md e
      ((sortEvents_perm _).mem_iff.mp he)
  have h := four_category_counts (sortEvents (detectEvents labels framewise t md)) hall
  simpa [detectResponse] using h

/-! ## Pacing classification (C4, C10) -/

/-- On nonnegative ratios the seven named regions are mutually exclusive and
exhaustive, and the filter finds exactly the classification. -/
theorem classify_pacing_partition (r : ℚ) (_hr : 0 ≤ r) :
    (pacingRegions.filter (fun q => q.2 r)).map Prod.fst = [classify_pacing r] := by
  rcases lt_or_le r (75/100 : ℚ) with h75 | h75
  · simp [pacingRegions, classify_pacing, h75,
      show ¬((97:ℚ)/100 ≤ r) by linarith, show ¬((90:ℚ)/100 ≤ r) by linarith,
      show ¬((75:ℚ)/100 ≤ r) by linarith, show ¬((103:ℚ)/100 < r) by linarith,
      show ¬((110:ℚ)/100 < r) by linarith, show ¬((125:ℚ)/100 < r) by linarith]
  · rcases lt_or_le r (90/100 : ℚ) with h90 | h90
    · simp [pacingRegions, classify_pacing, h75, h90,
        show ¬((97:ℚ)/100 ≤ r) by linarith, show ¬((90:ℚ)/100 ≤ r) by linarith,
        show ¬(r < (75:ℚ)/100) by linarith, show ¬((103:ℚ)/100 < r) by linarith,
        show ¬((110:ℚ)/100 < r) by linarith, show ¬((125:ℚ)/100 < r) by linarith]
    · rcases lt_or_le r (97/100 : ℚ) with h97 | h97
      · simp [pacingRegions, classify_pacing, h90, h97,
          show ¬((97:ℚ)/100 ≤ r) by linarith, show ¬(r < (90:ℚ)/100) by linarith,
          show ¬(r < (75:ℚ)/100) by linarith, show ¬((103:ℚ)/100 < r) by linarith,
          show ¬((110:ℚ)/100 < r) by linarith, show ¬((125:ℚ)/100 < r) by linarith]
      · rcases le_or_lt r (103/100 : ℚ) with h103 | h103
        · simp [pacingRegions, classify_pacing, h97, h103,
            show ¬(r < (97:ℚ)/100) by linarith, show ¬(r < (90:ℚ)/100) by linarith,
            show ¬(r < (75:ℚ)/100) by linarith, show ¬((103:ℚ)/100 < r) by linarith,
            show ¬((110:ℚ)/100 < r) by linarith, show ¬((125:ℚ)/100 < r) by linarith]
        · rcases le_or_lt r (110/100 : ℚ) with h110 | h110
          · simp [pacingRegions, classify_pacing, h103, h110,
              show ¬(r ≤ (103:ℚ)/100) by linarith, show ¬(r < (97:ℚ)/100) by linarith,
              show ¬(r < (90:ℚ)/100) by linarith, show ¬(r < (75:ℚ)/100) by linarith,
              show ¬((110:ℚ)/100 < r) by linarith, show ¬((125:ℚ)/100 < r) by linarith,
              show (97:ℚ)/100 ≤ r by linarith]
          · rcases le_or_lt r (125/100 : ℚ) with h125 | h125
            · simp [pacingRegions, classify_pacing, h110, h125,
                show ¬(r ≤ (103:ℚ)/100) by linarith, show ¬(r ≤ (110:ℚ)/100) by linarith,
                show ¬(r < (97:ℚ)/100) by linarith, show ¬(r < (90:ℚ)/100) by linarith,
                show ¬(r < (75:ℚ)/100) by linarith, show ¬((125:ℚ)/100 < r) by linarith,
                show (97:ℚ)/100 ≤ r by linarith, show (103:ℚ)/100 < r by linarith]
            · simp [pacingRegions, classify_pacing, h125,
                show ¬(r ≤ (103:ℚ)/100) by linarith, show ¬(r ≤ (110:ℚ)/100) by linarith,
                show ¬(r ≤ (125:ℚ)/100) by linarith, show ¬(r < (97:ℚ)/100) by linarith,
                show ¬(r < (90:ℚ)/100) by linarith, show ¬(r < (75:ℚ)/100) by linarith,
                show (97:ℚ)/100 ≤ r by linarith, show (103:ℚ)/100 < r by linarith,
                show (110:ℚ)/100 < r by linarith]

/-- C4: when both analyses succeed and the veo speech duration is positive,
the ratio is `user / veo` and the classification is determined by the ratio
according to the total, mutually exclusive seven-region partition of the
nonnegative rationals. -/
theorem analyze_pacing_spec
    (veoA userA : Except String (VadInput × (List ℚ → List (Nat × Nat))))
    (vd ud : ℚ) (vn un : Nat) (vs us : List (ℚ × ℚ × ℚ))
    (hv : get_speech_duration veoA = SpeechResult.ok vd vn vs)
    (hu : get_speech_duration userA = SpeechResult.ok ud un us)
    (hpos : 0 < vd) :
    analyze_pacing veoA userA
      = PacingResult.ok vd ud (ud / vd) (classify_pacing (ud / vd)) vn un ∧
    (∀ r : ℚ, 0 ≤ r →
      (pacingRegions.filter (fun q => q.2 r)).map Prod.fst = [classify_pacing r]) := by
  constructor
  · simp only [analyze_pacing, hv, hu]
    simp [hpos]
  · intro r hr
    exact classify_pacing_partition r hr

/-- Witness for C4: silent veo audio of 1s of speech against 2s of user
speech gives ratio 2 and classification `critically_slow`. -/
theorem analyze_pacing_spec_witness :
    analyze_pacing (Except.ok (⟨[], 16000⟩, fun _ => [(0, 16000)]))
        (Except.ok (⟨[], 16000⟩, fun _ => [(0, 32000)]))
      = PacingResult.ok 1 2 2 "critically_slow" 1 1 := by
  have hv : get_speech_duration (Except.ok (⟨[], 16000⟩, fun _ => [(0, 16000)]))
      = SpeechResult.ok 1 1 [(0, 1, 1)] := by
    norm_num [get_speech_duration, get_speech_duration_core, resample_to_16k]
  have hu : get_speech_duration (Except.ok (⟨[], 16000⟩, fun _ => [(0, 32000)]))
      = SpeechResult.ok 2 1 [(0, 2, 2)] := by
    norm_num [get_speech_duration, get_speech_duration_core, resample_to_16k]
  have h := analyze_pacing_spec _ _ 1 2 1 1 [(0, 1, 1)] [(0, 2, 2)] hv hu (by norm_num)
  rw [h.1]
  norm_num [classify_pacing]

/-- C10: whenever the veo speech duration is not positive, the ratio is set
to 0 instead of dividing, and the classification is `critically_fast` (also
when the user duration is 0). -/
theorem pacing_zero_guard_spec
    (veoA userA : Except String (VadInput × (List ℚ → List (Nat × Nat))))
    (vd ud : ℚ) (vn un : Nat) (vs us : List (ℚ × ℚ × ℚ))
    (hv : get_speech_duration veoA = SpeechResult.ok vd vn vs)
    (hu : get_speech_duration userA = SpeechResult.ok ud un us)
    (hnp : vd ≤ 0) :
    analyze_pacing veoA userA
      = PacingResult.ok vd ud 0 "critically_fast" vn un := by
  have hnotpos : ¬ 0 < vd := not_lt.mpr hnp
  simp only [analyze_pacing, hv, hu]
  simp only [hnotpos, if_false]
  norm_num [classify_pacing]

/-- Witness for C10: both durations 0 (empty VAD output on both sides) gives
ratio 0 and classification `critically_fast` with no division performed. -/
theorem pacing_zero_guard_spec_witness :
    analyze_pacing (Except.ok (⟨[], 16000⟩, fun _ => []))
        (Except.ok (⟨[], 16000⟩, fun _ => []))
      = PacingResult.ok 0 0 0 "critically_fast" 0 0 := by
  have h0 : get_speech_duration (Except.ok (⟨[], 16000⟩, fun _ => []))
      = SpeechResult.ok 0 0 [] := by
    norm_num [get_speech_duration, get_speech_duration_core, resample_to_16k]
  exact pacing_zero_guard_spec _ _ 0 0 0 0 [] [] h0 h0 le_rfl

/-! ## Top-level error handling (C5) -/

/-- C5: an exception anywhere inside `get_speech_duration` yields the failure
dict instead of propagating; `analyze_pacing` fails (naming the failing side)
whenever either per-file analysis fails; and an exception inside the body of
`detect_sounds` is surfaced as an HTTP 500 error response. -/
theorem error_handling_spec :
    (∀ e : String, get_speech_duration (Except.error e) = SpeechResult.err e ∧
      (get_speech_duration (Except.error e)).success = false) ∧
    (∀ (e : String) userA, analyze_pacing (Except.error e) userA
        = PacingResult.err ("VEO audio error: " ++ e) ∧
      (analyze_pacing (Except.error e) userA).success = false) ∧
    (∀ veoA (e : String), (get_speech_duration veoA).success = true →
      analyze_pacing veoA (Except.error e)
        = PacingResult.err ("User audio error: " ++ e)) ∧
    (∀ veoA userA, ((get_speech_duration veoA).success = false ∨
        (get_speech_duration userA).success = false) →
      (analyze_pacing veoA userA).success = false) ∧
    (∀ e : String, detect_sounds_handler (Except.error e)
        = HttpResult.httpError 500 ("Audio processing failed: " ++ e)) := by
  refine ⟨fun e => ⟨rfl, rfl⟩, fun e userA => ⟨rfl, rfl⟩, ?_, ?_, fun e => rfl⟩
  · intro veoA e hs
    rcases hres : get_speech_duration veoA with ⟨vd, vn, vs⟩ | msg
    · simp only [analyze_pacing, hres]
      rfl
    · rw [hres] at hs
      simp [SpeechResult.success] at hs
  · intro veoA userA hor
    rcases hv : get_speech_duration veoA with ⟨vd, vn, vs⟩ | mv
    · rcases hu : get_speech_duration userA with ⟨ud, un, us⟩ | mu
      · exfalso
        rw [hv, hu] at hor
        simp [SpeechResult.success] at hor
      · simp [analyze_pacing, hv, hu, PacingResult.success]
    · simp [analyze_pacing, hv, PacingResult.success]

/-- Witness for C5: a user-side exception is surfaced with the failing side
named; two failing sides give an unsuccessful result. -/
theorem error_handling_spec_witness :
    analyze_pacing (Except.ok (⟨[], 16000⟩, fun _ => [])) (Except.error "boom")
      = PacingResult.err ("User audio error: " ++ "boom") ∧
    (analyze_pacing (Except.error "x") (Except.error "y")).success = false := by
  constructor
  · exact error_handling_spec.2.2.1 (Except.ok (⟨[], 16000⟩, fun _ => [])) "boom" rfl
  · exact error_handling_spec.2.2.2.1 (Except.error "x") (Except.error "y") (Or.inl rfl)

/-! ## Lazy model initialization (C6) -/

/-- C6: `get_model` constructs the model only when the global is `None`; the
first call sets it to a non-`None` value, every later call returns that same
handle, and a non-`None` state is never reassigned. -/
theorem get_model_lazy_spec {Model : Type} (newModel : Model) :
    (∀ n : Nat, 1 ≤ n → sed_state_after newModel n = some newModel) ∧
    (∀ (st : Option Model) (m : Model), st = some m →
      get_model newModel st = (m, some m)) ∧
    (∀ n : Nat, 1 ≤ n →
      (get_model newModel (sed_state_after newModel n)).1 = newModel) := by
  have h1 : ∀ n : Nat, 1 ≤ n → sed_state_after newModel n = some newModel := by
    intro n hn
    induction n with
    | zero => omega
    | succ k ih =>
        cases k with
        | zero => rfl
        | succ k' =>
            have hk := ih (by omega)
            show (get_model newModel (sed_state_after newModel (k' + 1))).2
              = some newModel
            rw [hk]
            rfl
  refine ⟨h1, ?_, ?_⟩
  · rintro st m rfl
    rfl
  · intro n hn
    rw [h1 n hn]
    rfl

/-- Witness for C6: with a concrete model value, two calls leave the state at
the value installed by the first call, and a third call returns it. -/
theorem get_model_lazy_spec_witness :
    sed_state_after true 2 = some true ∧
    get_model true (some true) = (true, some true) ∧
    (get_model true (sed_state_after true 2)).1 = true := by
  refine ⟨(get_model_lazy_spec true).1 2 (by norm_num),
    (get_model_lazy_spec true).2.1 (some true) true rfl,
    (get_model_lazy_spec true).2.2 2 (by norm_num)⟩

/-! ## Resampling to 16kHz (C7) -/

theorem np_linspace_length (start stop : ℚ) (num : Nat) :
    (np_linspace start stop num).length = num := by
  simp only [np_linspace, List.length_map, List.length_range]

theorem np_interp_length (x fp : List ℚ) : (np_interp x fp).length = x.length := by
  simp only [np_interp, List.length_map]

/-- C7: an input whose sample rate differs from 16000 Hz is resampled by
linear interpolation to a buffer of length `int((len(audio)/sr) * 16000)`
before reaching the VAD model; an input already at 16000 Hz passes through
unresampled; and all sample-to-seconds conversions divide by 16000. -/
theorem resample_spec (audio : List ℚ) (sr : Nat)
    (vad : List ℚ → List (Nat × Nat)) :
    (sr ≠ 16000 →
      resample_to_16k audio sr
        = np_interp (np_linspace 0 (audio.length : ℚ) (vad_new_length audio sr)) audio ∧
      (resample_to_16k audio sr).length = vad_new_length audio sr) ∧
    (sr = 16000 → resample_to_16k audio sr = audio) ∧
    (∀ (vd : ℚ) (vn : Nat) (segs : List (ℚ × ℚ × ℚ)),
      get_speech_duration_core vad ⟨audio, sr⟩ = SpeechResult.ok vd vn segs →
      vd = ((((vad (resample_to_16k audio sr)).map (fun seg => seg.2 - seg.1)).sum : Nat) : ℚ)
            / 16000 ∧
      vn = (vad (resample_to_16k audio sr)).length ∧
      segs = (vad (resample_to_16k audio sr)).map (fun seg =>
        ((seg.1 : ℚ) / 16000, (seg.2 : ℚ) / 16000,
          ((seg.2 : ℚ) - (seg.1 : ℚ)) / 16000))) := by
  refine ⟨?_, ?_, ?_⟩
  · intro hne
    refine ⟨by simp [resample_to_16k, hne], ?_⟩
    simp [resample_to_16k, hne, np_interp_length, np_linspace_length]
  · intro he
    simp [resample_to_16k, he]
  · intro vd vn segs h
    simp only [get_speech_duration_core, SpeechResult.ok.injEq] at h
    obtain ⟨h1, h2, h3⟩ := h
    exact ⟨h1.symm, h2.symm, h3.symm⟩

/-- Witness for C7: two samples at 8000 Hz resample to a buffer of length
`int((2/8000)*16000) = 4`; one sample at 16000 Hz passes through; the
conversion of the returned duration divides by 16000. -/
theorem resample_spec_witness :
    (resample_to_16k [(0 : ℚ), 1] 8000).length = 4 ∧
    resample_to_16k [(0 : ℚ)] 16000 = [(0 : ℚ)] := by
  constructor
  · have h := (resample_spec [(0 : ℚ), 1] 8000 (fun _ => [])).1 (by norm_num)
    rw [h.2]
    norm_num [vad_new_length]
    decide
  · exact (resample_spec [(0 : ℚ)] 16000 (fun _ => [])).2.1 rfl

end VoiceSync
